import Mathlib

/-!
Verification of the slide-to-video assembly pipeline of Slide-Voice-Maker
(`src/processor.py`) against its natural-language specification.

The Python functions are shallowly embedded as executable Lean definitions:
pure string/list manipulation becomes functions on `List Char` / `String`,
Python `float` arithmetic on durations and ratios is modelled by exact `ℚ`
(the quantities involved are small and far from the float rounding
boundaries the claims touch), and filesystem or process facts (file
modification times, probe results, process exit codes and output bytes) are
passed in as explicit arguments.
-/

namespace SlideVoiceMaker

/-! ### Python string helpers

Python's `str.strip()` removes leading and trailing whitespace.  The
whitespace set modelled here covers ASCII whitespace plus the two common
Unicode spaces (no-break space, ideographic space) that occur in this
pipeline's Japanese inputs. -/

def isPySpace (c : Char) : Bool :=
  c = ' ' || c = '\t' || c = '\n' || c = '\r' || c = '\x0b' || c = '\x0c' ||
    c = ' ' || c = '　'

/-- `str.strip()` on a list of characters: drop whitespace from both ends. -/
def pyStrip (l : List Char) : List Char :=
  ((l.dropWhile isPySpace).reverse.dropWhile isPySpace).reverse

/-- `str.strip()` on a `String`. -/
def pyStripS (s : String) : String :=
  String.mk (pyStrip s.toList)

theorem forall_dropWhile_iff (p : Char → Bool) (l : List Char) :
    (∀ c ∈ l.dropWhile p, p c) ↔ ∀ c ∈ l, p c := by
  induction l with
  | nil => simp
  | cons c cs ih =>
    by_cases h : p c
    · simp [List.dropWhile_cons, h, ih]
    · simp [List.dropWhile_cons, h]

theorem pyStrip_eq_nil_iff (l : List Char) :
    pyStrip l = [] ↔ ∀ c ∈ l, isPySpace c := by
  unfold pyStrip
  rw [List.reverse_eq_nil_iff, List.dropWhile_eq_nil_iff]
  simp only [List.mem_reverse]
  exact forall_dropWhile_iff _ _

theorem pyStrip_ne_nil_of_mem {l : List Char} {c : Char} (hc : c ∈ l)
    (hs : ¬ isPySpace c) : pyStrip l ≠ [] := by
  intro h
  exact hs ((pyStrip_eq_nil_iff l).mp h c hc)

/-! ### Concat descriptor builder (`_write_concat_list`)

`_write_concat_list(paths, durations, out_path)` writes an FFmpeg concat
demuxer list: one `file '<path>'` line per input path, each followed by a
`duration <d>` line when `durations` is given (a non-positive duration is
clamped to `0.01`), and — only when `durations` is given and `paths` is
non-empty — a final repeat of the last `file` line with no duration.
The written file is modelled as the list of its lines. -/

inductive ConcatLine where
  | file (path : String)
  | dur (d : ℚ)
deriving DecidableEq

/-- Path quoting in `_write_concat_list`: `.replace("\\", "/")` turns each
backslash into a forward slash, then `.replace("'", "\\'")` escapes each
single quote.  (`os.path.abspath` is the identity here: the embedding takes
the already-absolutized path as input.) -/
def quoteConcatPath (p : String) : String :=
  String.mk
    (((p.toList.map fun c => if c = '\\' then '/' else c).flatMap
      fun c => if c = '\'' then ['\\', c] else [c]))

/-- The clamp applied to each written duration: `if d <= 0: d = 0.01`. -/
def clampDur (d : ℚ) : ℚ :=
  if d ≤ 0 then 1 / 100 else d

/-- The per-path loop body of `_write_concat_list`.  When durations are
present the two lists run in lockstep (the source indexes `durations[idx]`
and assumes equal lengths). -/
def concatBody : List String → Option (List ℚ) → List ConcatLine
  | [], _ => []
  | p :: ps, none => .file (quoteConcatPath p) :: concatBody ps none
  | p :: ps, some ds =>
      .file (quoteConcatPath p) :: .dur (clampDur (ds.headD 0)) ::
        concatBody ps (some ds.tail)

/-- `_write_concat_list`: the loop, then the terminal repeat of the last
file (written only when `durations` is present and `paths` is non-empty:
`if paths and durations is not None`). -/
def writeConcatList (paths : List String) (durations : Option (List ℚ)) :
    List ConcatLine :=
  concatBody paths durations ++
    (match paths.getLast?, durations with
     | some last, some _ => [.file (quoteConcatPath last)]
     | _, _ => [])

/-- Reading the written lines back as descriptor entries
`(file path, optional duration)`: a `file` line optionally followed by a
`duration` line forms one entry (the spec's "one entry per line,
`file '<escaped-path>'` optionally followed by `duration <seconds>`"). -/
def entriesOfLines : List ConcatLine → List (String × Option ℚ)
  | [] => []
  | .file p :: .dur d :: rest => (p, some d) :: entriesOfLines rest
  | .file p :: rest => (p, none) :: entriesOfLines rest
  | .dur _ :: rest => entriesOfLines rest

/-- The video-side descriptor (image paths with per-slide durations). -/
def videoDescriptor (paths : List String) (durations : List ℚ) :
    List (String × Option ℚ) :=
  entriesOfLines (writeConcatList paths (some durations))

/-- The audio-side descriptor (audio paths, `durations = None`). -/
def audioDescriptor (paths : List String) : List (String × Option ℚ) :=
  entriesOfLines (writeConcatList paths none)

theorem concatBody_none_eq (paths : List String) :
    concatBody paths none =
      paths.map (fun p => ConcatLine.file (quoteConcatPath p)) := by
  induction paths with
  | nil => rfl
  | cons p ps ih => simp [concatBody, ih]

theorem entriesOfLines_files (paths : List String) :
    entriesOfLines
        (paths.map (fun p => ConcatLine.file (quoteConcatPath p))) =
      paths.map (fun p => (quoteConcatPath p, (none : Option ℚ))) := by
  induction paths with
  | nil => rfl
  | cons p ps ih =>
    cases ps with
    | nil => rfl
    | cons q qs =>
      exact congrArg
        (fun l => (quoteConcatPath p, (none : Option ℚ)) :: l)
        (by simpa using ih)

/-- The audio descriptor is exactly one duration-free entry per input path,
in order; in particular the writer appends no terminal repeat. -/
theorem audioDescriptor_eq (paths : List String) :
    audioDescriptor paths =
      paths.map (fun p => (quoteConcatPath p, (none : Option ℚ))) := by
  unfold audioDescriptor writeConcatList
  simp [concatBody_none_eq, entriesOfLines_files]

theorem entriesOfLines_body_dur (paths : List String) (ds : List ℚ)
    (tail : List ConcatLine) (hlen : ds.length = paths.length) :
    entriesOfLines (concatBody paths (some ds) ++ tail) =
      (paths.zip ds).map
          (fun pd => (quoteConcatPath pd.1, some (clampDur pd.2))) ++
        entriesOfLines tail := by
  induction paths generalizing ds with
  | nil => simp [concatBody]
  | cons p ps ih =>
    cases ds with
    | nil => simp at hlen
    | cons d ds' =>
      simp only [concatBody, List.headD, List.tail, List.cons_append,
        entriesOfLines, List.zip_cons_cons, List.map_cons, List.append_eq]
      rw [ih ds' (by simpa using hlen)]

/-- Shape of the video-side descriptor: one duration-carrying entry per
slide, followed by the terminal repeat of the last path with no duration. -/
theorem videoDescriptor_eq (paths : List String) (durations : List ℚ)
    (hne : paths ≠ []) (hlen : durations.length = paths.length) :
    videoDescriptor paths durations =
      (paths.zip durations).map
          (fun pd => (quoteConcatPath pd.1, some (clampDur pd.2))) ++
        [(quoteConcatPath (paths.getLast hne), none)] := by
  unfold videoDescriptor writeConcatList
  rw [List.getLast?_eq_getLast _ hne]
  rw [entriesOfLines_body_dur paths durations _ hlen]
  rfl

theorem zip_map_last (paths : List String) (ds : List ℚ)
    (hne : paths ≠ []) (hlen : ds.length = paths.length) :
    ∃ front d,
      (paths.zip ds).map
          (fun pd => (quoteConcatPath pd.1, some (clampDur pd.2))) =
        front ++ [(quoteConcatPath (paths.getLast hne), some (clampDur d))] := by
  induction paths generalizing ds with
  | nil => exact absurd rfl hne
  | cons p ps ih =>
    cases ds with
    | nil => simp at hlen
    | cons d ds' =>
      cases ps with
      | nil =>
        cases ds' with
        | nil => exact ⟨[], d, rfl⟩
        | cons _ _ => simp at hlen
      | cons q qs =>
        obtain ⟨front, d', hfd⟩ :=
          ih ds' (List.cons_ne_nil q qs) (by simpa using hlen)
        refine ⟨(quoteConcatPath p, some (clampDur d)) :: front, d', ?_⟩
        rw [List.zip_cons_cons, List.map_cons, hfd]
        simp [List.getLast_cons]

/-- C1.  The claim as frozen says the video concat descriptor has as many
entries as there are slides; since the writer appends the terminal repeat of
the last path as an entry of its own, the descriptor for one slide already
has two entries. -/
theorem video_concat_entry_count_counterexample :
    (videoDescriptor ["a"] [2]).length ≠ (["a"] : List String).length := by
  decide

/-- C1 (amended).  For every non-empty slide list with per-slide durations,
the video concat descriptor has slide count + 1 entries: one
duration-carrying entry per slide, then a terminal entry repeating the final
slide's file path with no duration line — so the final two entries share
their file path and only the terminal one lacks a duration. -/
theorem video_concat_repeat_terminal (paths : List String)
    (durations : List ℚ) (hne : paths ≠ [])
    (hlen : durations.length = paths.length) :
    (videoDescriptor paths durations).length = paths.length + 1 ∧
    (∃ front d,
      videoDescriptor paths durations =
        front ++ [(quoteConcatPath (paths.getLast hne), some (clampDur d)),
          (quoteConcatPath (paths.getLast hne), none)]) ∧
    ∀ e ∈ (videoDescriptor paths durations).dropLast, e.2.isSome := by
  have hD := videoDescriptor_eq paths durations hne hlen
  obtain ⟨front, d, hfd⟩ := zip_map_last paths durations hne hlen
  refine ⟨?_, ⟨front, d, ?_⟩, ?_⟩
  · rw [hD]
    simp [List.length_zip, hlen]
  · rw [hD, hfd, List.append_assoc]
    rfl
  · intro e he
    rw [hD] at he
    rw [List.dropLast_concat] at he
    obtain ⟨pd, _, rfl⟩ := List.mem_map.mp he
    rfl

/-- C1 witness: the amended shape at a concrete two-slide input. -/
theorem video_concat_repeat_terminal_witness :
    (videoDescriptor ["a", "b"] [2, 3]).length = 2 + 1 :=
  (video_concat_repeat_terminal ["a", "b"] [2, 3] (by decide)
    (by decide)).1

/-- C2.  The audio concat descriptor (durations = None) is exactly one
duration-free entry per audio path: same count as the paths, no duration
lines, and no terminal repeat is appended — so when the (quoted) input paths
are pairwise distinct the descriptor has no duplicated entries at all, in
particular no duplicated terminal entry. -/
theorem audio_concat_no_terminal_repeat (paths : List String) :
    audioDescriptor paths =
      paths.map (fun p => (quoteConcatPath p, (none : Option ℚ))) ∧
    (audioDescriptor paths).length = paths.length ∧
    (∀ e ∈ audioDescriptor paths, e.2 = none) ∧
    ((paths.map quoteConcatPath).Nodup → (audioDescriptor paths).Nodup) := by
  refine ⟨audioDescriptor_eq paths, ?_, ?_, ?_⟩
  · rw [audioDescriptor_eq]; simp
  · intro e he
    rw [audioDescriptor_eq] at he
    obtain ⟨p, _, rfl⟩ := List.mem_map.mp he
    rfl
  · intro hnd
    rw [audioDescriptor_eq]
    have : paths.map (fun p => (quoteConcatPath p, (none : Option ℚ))) =
        (paths.map quoteConcatPath).map (fun s => (s, none)) := by
      rw [List.map_map]
      rfl
    rw [this]
    exact hnd.map (fun a b hab => congrArg Prod.fst hab)

/-- C2 witness: the audio descriptor of two distinct paths, with the
no-duplicate conclusion discharged at that input. -/
theorem audio_concat_no_terminal_repeat_witness :
    (audioDescriptor ["a", "b"]).Nodup :=
  (audio_concat_no_terminal_repeat ["a", "b"]).2.2.2 (by decide)

/-! ### Subtitle segmentation (`_get_subtitle_segments`)

The script is split by `re.split(r'([。、！？!?\n]+)', script)` into maximal
runs of sentence-ending punctuation and the text between them (the capture
group keeps the punctuation runs; the empty boundary pieces the `re.split`
also yields are whitespace-only and removed by the same `s.strip()` filter
that removes whitespace-only text pieces).  A text piece is then merged with
the punctuation run that follows it, and each merged piece gets start/end
ratios proportional to its character count. -/

def isPunct (c : Char) : Bool :=
  c = '。' || c = '、' || c = '！' || c = '？' || c = '!' || c = '?' ||
    c = '\n'

/-- One step of splitting into maximal same-class runs: prepend the
character to the first run when it has the same punctuation class as that
run's first character, else start a new run. -/
def runsStep (c : Char) (acc : List (List Char)) : List (List Char) :=
  match acc with
  | (d :: r) :: rs =>
      if isPunct c = isPunct d then (c :: d :: r) :: rs
      else [c] :: (d :: r) :: rs
  | _ => [[c]]

/-- Split into the maximal runs of punctuation / non-punctuation characters
that `re.split(r'([。、！？!?\n]+)', script)` produces (without the empty
boundary pieces, which the strip-filter below removes anyway). -/
def runs (l : List Char) : List (List Char) :=
  l.foldr runsStep []

/-- `re.match(r'^[。、！？!?\n]+$', s)`: a non-empty all-punctuation piece. -/
def isPunctRun (r : List Char) : Bool :=
  !r.isEmpty && r.all isPunct

/-- The merge loop of `_get_subtitle_segments`: a piece followed by a
punctuation run absorbs it; otherwise the piece stands alone. -/
def mergeSegs : List (List Char) → List (List Char)
  | [] => []
  | [t] => [t]
  | t :: u :: rest =>
      if isPunctRun u then (t ++ u) :: mergeSegs rest
      else t :: mergeSegs (u :: rest)

structure CaptionSeg where
  text : List Char
  startRatio : ℚ
  endRatio : ℚ
deriving DecidableEq

/-- The ratio-assignment loop: `start_ratio = char_count / total_chars`
before a piece, `end_ratio` the same fraction after it. -/
def ratioSegs (total : ℚ) : ℚ → List (List Char) → List CaptionSeg
  | _, [] => []
  | c, t :: ts =>
      ⟨t, c / total, (c + (t.length : ℚ)) / total⟩ ::
        ratioSegs total (c + (t.length : ℚ)) ts

/-- The tail of `_get_subtitle_segments` after the merge: bail out on an
empty merged list or a zero character total, else assign ratios. -/
def segmentsOfMerged (merged : List (List Char)) : List CaptionSeg :=
  if merged.isEmpty then []
  else if (merged.map List.length).sum = 0 then []
  else ratioSegs (((merged.map List.length).sum : ℕ) : ℚ) 0 merged

/-- `_get_subtitle_segments`: split on punctuation runs, drop
whitespace-only pieces, merge trailing punctuation, assign ratios
proportional to character counts. -/
def getSubtitleSegments (script : List Char) : List CaptionSeg :=
  if script.isEmpty then []
  else
    segmentsOfMerged
      (mergeSegs ((runs script).filter fun r => !(pyStrip r).isEmpty))

theorem runsStep_mem {a : Char} {acc : List (List Char)} {r : List Char}
    (hr : r ∈ runsStep a acc) :
    ∀ c ∈ r, c = a ∨ ∃ s ∈ acc, c ∈ s := by
  rcases acc with _ | ⟨s0, rs⟩
  · simp only [runsStep] at hr
    simp only [List.mem_singleton] at hr
    subst hr
    intro c hc
    simp only [List.mem_singleton] at hc
    exact Or.inl hc
  · rcases s0 with _ | ⟨d, dr⟩
    · simp only [runsStep] at hr
      simp only [List.mem_singleton] at hr
      subst hr
      intro c hc
      simp only [List.mem_singleton] at hc
      exact Or.inl hc
    · simp only [runsStep] at hr
      by_cases hcls : isPunct a = isPunct d
      · rw [if_pos hcls] at hr
        rcases List.mem_cons.mp hr with h | h
        · subst h
          intro c hc
          rcases List.mem_cons.mp hc with h | h
          · exact Or.inl h
          · exact Or.inr ⟨d :: dr, List.mem_cons_self _ _, h⟩
        · intro c hc
          exact Or.inr ⟨r, List.mem_cons_of_mem _ h, hc⟩
      · rw [if_neg hcls] at hr
        rcases List.mem_cons.mp hr with h | h
        · subst h
          intro c hc
          simp only [List.mem_singleton] at hc
          exact Or.inl hc
        · intro c hc
          exact Or.inr ⟨r, h, hc⟩

theorem runs_mem {l : List Char} : ∀ r ∈ runs l, ∀ c ∈ r, c ∈ l := by
  induction l with
  | nil => simp [runs]
  | cons a as ih =>
    intro r hr c hc
    have hr' : r ∈ runsStep a (runs as) := hr
    rcases runsStep_mem hr' c hc with h | ⟨s, hs, hcs⟩
    · simp [h]
    · exact List.mem_cons_of_mem _ (ih s hs c hcs)

theorem mergeSegs_eq_nil_iff (ms : List (List Char)) :
    mergeSegs ms = [] ↔ ms = [] := by
  match ms with
  | [] => simp [mergeSegs]
  | [t] => simp [mergeSegs]
  | t :: u :: rest =>
    constructor
    · intro h
      unfold mergeSegs at h
      by_cases hu : isPunctRun u
      · rw [if_pos hu] at h; exact absurd h (List.cons_ne_nil _ _)
      · rw [if_neg (by simpa using hu)] at h
        exact absurd h (List.cons_ne_nil _ _)
    · intro h; exact absurd h (List.cons_ne_nil _ _)

theorem mergeSegs_strip_ne {ms : List (List Char)}
    (h : ∀ r ∈ ms, pyStrip r ≠ []) :
    ∀ m ∈ mergeSegs ms, pyStrip m ≠ [] := by
  match ms with
  | [] => simp [mergeSegs]
  | [t] => simpa [mergeSegs] using h
  | t :: u :: rest =>
    intro m hm
    unfold mergeSegs at hm
    by_cases hu : isPunctRun u
    · rw [if_pos hu] at hm
      rcases List.mem_cons.mp hm with hh | hh
      · subst hh
        have ht := h t (List.mem_cons_self _ _)
        rw [Ne, pyStrip_eq_nil_iff] at ht
        push_neg at ht
        obtain ⟨c, hc, hcs⟩ := ht
        exact pyStrip_ne_nil_of_mem (List.mem_append_left _ hc) (by simpa using hcs)
      · exact mergeSegs_strip_ne (fun r hr => h r (by simp [hr])) m hh
    · rw [if_neg (by simpa using hu)] at hm
      rcases List.mem_cons.mp hm with hh | hh
      · subst hh; exact h m (List.mem_cons_self _ _)
      · exact mergeSegs_strip_ne (fun r hr => h r (by simp at hr ⊢; tauto)) m hh

theorem ratioSegs_texts (T : ℚ) (c : ℚ) (ms : List (List Char)) :
    (ratioSegs T c ms).map CaptionSeg.text = ms := by
  induction ms generalizing c with
  | nil => rfl
  | cons t ts ih => simp [ratioSegs, ih]

theorem ratioSegs_head_start (T : ℚ) (c : ℚ) (t : List Char)
    (ts : List (List Char)) :
    ∃ s rest, ratioSegs T c (t :: ts) = s :: rest ∧ s.startRatio = c / T :=
  ⟨_, _, rfl, rfl⟩

theorem ratioSegs_chain (T : ℚ) (c : ℚ) (ms : List (List Char)) :
    List.Chain' (fun a b => a.endRatio = b.startRatio) (ratioSegs T c ms) := by
  induction ms generalizing c with
  | nil => simp [ratioSegs]
  | cons t ts ih =>
    rw [ratioSegs]
    refine List.chain'_cons'.mpr ⟨?_, ih _⟩
    intro b hb
    cases ts with
    | nil => simp [ratioSegs] at hb
    | cons t' ts' =>
      simp only [ratioSegs, List.head?_cons, Option.mem_def,
        Option.some.injEq] at hb
      rw [← hb]

theorem ratioSegs_getLast?_end (T : ℚ) (ms : List (List Char)) :
    ∀ (c : ℚ) (seg : CaptionSeg),
      (ratioSegs T c ms).getLast? = some seg →
      seg.endRatio = (c + ((ms.map List.length).sum : ℚ)) / T := by
  induction ms with
  | nil =>
    intro c seg h
    simp [ratioSegs] at h
  | cons t ts ih =>
    intro c seg h
    cases ts with
    | nil =>
      rw [show ratioSegs T c [t] =
        [CaptionSeg.mk t (c / T) ((c + (t.length : ℚ)) / T)] from rfl] at h
      rw [List.getLast?_singleton, Option.some_inj] at h
      rw [← h]
      simp
    | cons t' ts' =>
      rw [show ratioSegs T c (t :: t' :: ts') =
        CaptionSeg.mk t (c / T) ((c + (t.length : ℚ)) / T) ::
          CaptionSeg.mk t' ((c + (t.length : ℚ)) / T)
            ((c + (t.length : ℚ) + (t'.length : ℚ)) / T) ::
          ratioSegs T (c + (t.length : ℚ) + (t'.length : ℚ)) ts' from
        rfl] at h
      rw [List.getLast?_cons_cons] at h
      have hih := ih (c + (t.length : ℚ)) seg h
      rw [hih]
      congr 1
      simp only [List.map_cons, List.sum_cons]
      push_cast
      ring

theorem ratioSegs_share (T : ℚ) (hT : T ≠ 0) (c : ℚ)
    (ms : List (List Char)) :
    ∀ seg ∈ ratioSegs T c ms,
      (seg.endRatio - seg.startRatio) * T = (seg.text.length : ℚ) := by
  induction ms generalizing c with
  | nil => simp [ratioSegs]
  | cons t ts ih =>
    intro seg hseg
    rcases List.mem_cons.mp hseg with h | h
    · subst h
      show ((c + (t.length : ℚ)) / T - c / T) * T = _
      field_simp
    · exact ih _ seg h

theorem ratioSegs_span_sum (T : ℚ) (c : ℚ) (ms : List (List Char)) :
    ((ratioSegs T c ms).map
        (fun s => s.endRatio - s.startRatio)).sum =
      ((ms.map List.length).sum : ℚ) / T := by
  induction ms generalizing c with
  | nil => simp [ratioSegs]
  | cons t ts ih =>
    rw [ratioSegs, List.map_cons, List.sum_cons, ih, div_sub_div_same,
      div_add_div_same, List.map_cons, List.sum_cons]
    congr 1
    push_cast
    ring

theorem segmentsOfMerged_spec (merged : List (List Char))
    (hstrip : ∀ m ∈ merged, pyStrip m ≠ []) :
    List.Chain' (fun a b => a.endRatio = b.startRatio)
      (segmentsOfMerged merged) ∧
    (segmentsOfMerged merged ≠ [] →
      ((segmentsOfMerged merged).head?.map CaptionSeg.startRatio = some 0 ∧
        (segmentsOfMerged merged).getLast?.map CaptionSeg.endRatio = some 1)) ∧
    (∀ seg ∈ segmentsOfMerged merged,
      pyStrip seg.text ≠ [] ∧
      (seg.endRatio - seg.startRatio) *
          ((((segmentsOfMerged merged).map
            (fun s => s.text.length)).sum : ℕ) : ℚ) =
        (seg.text.length : ℚ)) := by
  rcases merged with _ | ⟨t, ts⟩
  · exact ⟨by simp [segmentsOfMerged], fun h => absurd rfl h,
      by simp [segmentsOfMerged]⟩

  · have htne : pyStrip t ≠ [] := hstrip t (List.mem_cons_self _ _)
    have htlen : t.length ≠ 0 := by
      intro h
      rw [List.length_eq_zero] at h
      subst h
      exact htne rfl
    have htot : ((t :: ts).map List.length).sum ≠ 0 := by
      simp only [List.map_cons, List.sum_cons]
      omega
    have hrw : segmentsOfMerged (t :: ts) =
        ratioSegs ((((t :: ts).map List.length).sum : ℕ) : ℚ) 0 (t :: ts) := by
      unfold segmentsOfMerged
      rw [if_neg (by simp), if_neg htot]
    set T : ℚ := ((((t :: ts).map List.length).sum : ℕ) : ℚ) with hTdef
    have hTne : T ≠ 0 := Nat.cast_ne_zero.mpr htot
    refine ⟨?_, ?_, ?_⟩
    · rw [hrw]; exact ratioSegs_chain T 0 _
    · intro h
      rw [hrw] at h ⊢
      constructor
      · rw [show ratioSegs T 0 (t :: ts) =
          CaptionSeg.mk t (0 / T) ((0 + (t.length : ℚ)) / T) ::
            ratioSegs T (0 + (t.length : ℚ)) ts from rfl]
        rw [List.head?_cons, Option.map_some']
        rw [show (CaptionSeg.mk t (0 / T) ((0 + (t.length : ℚ)) / T)).startRatio
          = 0 / T from rfl]
        rw [zero_div]
      · have hsome := List.getLast?_eq_getLast _ h
        have hend := ratioSegs_getLast?_end T (t :: ts) 0 _ hsome
        rw [hsome, Option.map_some', hend, zero_add, div_self hTne]
    · intro seg hseg
      rw [hrw] at hseg
      have htext : seg.text ∈ (ratioSegs T 0 (t :: ts)).map CaptionSeg.text :=
        List.mem_map_of_mem _ hseg
      rw [ratioSegs_texts] at htext
      refine ⟨hstrip _ htext, ?_⟩
      have hmapsum :
          ((((segmentsOfMerged (t :: ts)).map
            (fun s => s.text.length)).sum : ℕ) : ℚ) = T := by
        rw [hrw]
        rw [show (ratioSegs T 0 (t :: ts)).map (fun s => s.text.length) =
          ((ratioSegs T 0 (t :: ts)).map CaptionSeg.text).map List.length
          from by rw [List.map_map]; rfl]
        rw [ratioSegs_texts]
      rw [hmapsum]
      exact ratioSegs_share T hTne 0 (t :: ts) seg hseg

/-- C3.  For every script, the caption segments of
`_get_subtitle_segments` partition `[0,1]` contiguously: a whitespace-only
(or empty) script yields no segments; adjacent segments share their
boundary ratio; when segments exist the first starts at ratio 0 and the
last ends at ratio 1; every segment's text is non-empty after trimming and
its ratio share times the total character count equals its own character
count. -/
theorem subtitle_segments_partition (script : List Char) :
    (pyStrip script = [] → getSubtitleSegments script = []) ∧
    List.Chain' (fun a b => a.endRatio = b.startRatio)
      (getSubtitleSegments script) ∧
    (getSubtitleSegments script ≠ [] →
      ((getSubtitleSegments script).head?.map CaptionSeg.startRatio = some 0 ∧
        (getSubtitleSegments script).getLast?.map CaptionSeg.endRatio =
          some 1)) ∧
    (∀ seg ∈ getSubtitleSegments script,
      pyStrip seg.text ≠ [] ∧
      (seg.endRatio - seg.startRatio) *
          ((((getSubtitleSegments script).map
            (fun s => s.text.length)).sum : ℕ) : ℚ) =
        (seg.text.length : ℚ)) := by
  by_cases hemp : script.isEmpty
  · have hS : getSubtitleSegments script = [] := by
      unfold getSubtitleSegments
      rw [if_pos hemp]
    exact ⟨fun _ => hS, by simp [hS], fun h => absurd hS h, by simp [hS]⟩
  · have hS : getSubtitleSegments script =
        segmentsOfMerged
          (mergeSegs ((runs script).filter fun r => !(pyStrip r).isEmpty)) := by
      unfold getSubtitleSegments
      rw [if_neg hemp]
    have hstrip : ∀ m ∈ mergeSegs
        ((runs script).filter fun r => !(pyStrip r).isEmpty),
        pyStrip m ≠ [] := by
      apply mergeSegs_strip_ne
      intro r hr
      have := (List.mem_filter.mp hr).2
      simpa using this
    have key := segmentsOfMerged_spec _ hstrip
    refine ⟨?_, hS ▸ key.1, hS ▸ key.2.1, hS ▸ key.2.2⟩
    intro hspace
    have hall := (pyStrip_eq_nil_iff script).mp hspace
    have hfil : (runs script).filter (fun r => !(pyStrip r).isEmpty) = [] := by
      rw [List.filter_eq_nil_iff]
      intro r hr
      have : pyStrip r = [] :=
        (pyStrip_eq_nil_iff r).mpr fun c hc => hall c (runs_mem r hr c hc)
      simp [this]
    rw [hS, hfil]
    rfl

/-- C3 witness: a whitespace-only script yields no segments, and a concrete
two-segment script starts at ratio 0 and ends at ratio 1. -/
theorem subtitle_segments_partition_witness :
    getSubtitleSegments (" ".toList) = [] ∧
    ((getSubtitleSegments ("a。b".toList)).head?.map CaptionSeg.startRatio =
        some 0 ∧
      (getSubtitleSegments ("a。b".toList)).getLast?.map CaptionSeg.endRatio =
        some 1) :=
  ⟨(subtitle_segments_partition _).1 (by decide),
   (subtitle_segments_partition _).2.2.1 (by decide)⟩

/-! ### ASS subtitle timeline (`_generate_ass_subtitle`)

For each slide with a (stripped) non-empty script, each caption segment is
scaled by the slide's duration and offset by the running time accumulator;
a span shorter than `min_seg = 0.15` seconds is extended to the floor. -/

def minSeg : ℚ := 3 / 20

/-- `seg['text'].replace('\n', '\\N')`. -/
def escapeAssText (l : List Char) : List Char :=
  l.flatMap fun c => if c = '\n' then ['\\', 'N'] else [c]

structure AssEvent where
  startTime : ℚ
  endTime : ℚ
  text : List Char
deriving DecidableEq

/-- One caption event: `seg_start = current_time + duration * start_ratio`,
`seg_end = current_time + duration * end_ratio`, extended to
`seg_start + min_seg` when the span falls below the floor. -/
def mkSlideEvent (currentTime duration : ℚ) (seg : CaptionSeg) : AssEvent :=
  ⟨currentTime + duration * seg.startRatio,
   if currentTime + duration * seg.endRatio -
        (currentTime + duration * seg.startRatio) < minSeg then
     currentTime + duration * seg.startRatio + minSeg
   else currentTime + duration * seg.endRatio,
   escapeAssText seg.text⟩

/-- The events one slide contributes: nothing when the stripped script is
empty, else one event per caption segment of the stripped script. -/
def slideEvents (currentTime : ℚ) (script : List Char) (duration : ℚ) :
    List AssEvent :=
  if (pyStrip script).isEmpty then []
  else (getSubtitleSegments (pyStrip script)).map
    (mkSlideEvent currentTime duration)

/-- The whole event loop of `_generate_ass_subtitle`: the running time
accumulator advances by each slide's duration whether or not the slide
contributed events. -/
def assEvents : ℚ → List (List Char × ℚ) → List AssEvent
  | _, [] => []
  | currentTime, (script, duration) :: rest =>
      slideEvents currentTime script duration ++
        assEvents (currentTime + duration) rest

theorem filtered_strip (script : List Char) :
    ∀ m ∈ mergeSegs ((runs script).filter fun r => !(pyStrip r).isEmpty),
      pyStrip m ≠ [] := by
  apply mergeSegs_strip_ne
  intro r hr
  simpa using (List.mem_filter.mp hr).2

theorem getSubtitleSegments_edge (script : List Char)
    (h : getSubtitleSegments script ≠ []) :
    (getSubtitleSegments script).head?.map CaptionSeg.startRatio = some 0 ∧
    (getSubtitleSegments script).getLast?.map CaptionSeg.endRatio = some 1 := by
  by_cases hemp : script.isEmpty
  · exact absurd (by unfold getSubtitleSegments; rw [if_pos hemp]) h
  · have hS : getSubtitleSegments script =
        segmentsOfMerged
          (mergeSegs ((runs script).filter fun r => !(pyStrip r).isEmpty)) := by
      unfold getSubtitleSegments
      rw [if_neg hemp]
    rw [hS] at h ⊢
    exact (segmentsOfMerged_spec _ (filtered_strip script)).2.1 h

theorem segmentsOfMerged_span_sum (merged : List (List Char))
    (h : segmentsOfMerged merged ≠ []) :
    ((segmentsOfMerged merged).map
      (fun s => s.endRatio - s.startRatio)).sum = 1 := by
  unfold segmentsOfMerged at h ⊢
  by_cases h1 : merged.isEmpty
  · rw [if_pos h1] at h
    exact absurd rfl h
  rw [if_neg h1] at h ⊢
  by_cases h2 : (merged.map List.length).sum = 0
  · rw [if_pos h2] at h
    exact absurd rfl h
  rw [if_neg h2] at h ⊢
  rw [ratioSegs_span_sum]
  exact div_self (Nat.cast_ne_zero.mpr h2)

theorem getSubtitleSegments_span_sum (script : List Char)
    (h : getSubtitleSegments script ≠ []) :
    ((getSubtitleSegments script).map
      (fun s => s.endRatio - s.startRatio)).sum = 1 := by
  by_cases hemp : script.isEmpty
  · exact absurd (by unfold getSubtitleSegments; rw [if_pos hemp]) h
  · have hS : getSubtitleSegments script =
        segmentsOfMerged
          (mergeSegs ((runs script).filter fun r => !(pyStrip r).isEmpty)) := by
      unfold getSubtitleSegments
      rw [if_neg hemp]
    rw [hS] at h ⊢
    exact segmentsOfMerged_span_sum _ h

theorem sum_map_mul (r : ℚ) (l : List CaptionSeg) (f : CaptionSeg → ℚ) :
    (l.map fun s => r * f s).sum = r * (l.map f).sum := by
  induction l with
  | nil => simp
  | cons a t ih => simp [ih, mul_add]

theorem sum_map_le (l : List CaptionSeg) (f g : CaptionSeg → ℚ)
    (h : ∀ s ∈ l, f s ≤ g s) : (l.map f).sum ≤ (l.map g).sum := by
  induction l with
  | nil => simp
  | cons a t ih =>
    simp only [List.map_cons, List.sum_cons]
    exact add_le_add (h a (List.mem_cons_self _ _))
      (ih fun s hs => h s (List.mem_cons_of_mem _ hs))

theorem forall₂_map_self {α β : Type} (f : α → β) (R : β → α → Prop)
    (l : List α) (h : ∀ a ∈ l, R (f a) a) : List.Forall₂ R (l.map f) l := by
  induction l with
  | nil => simp
  | cons a t ih =>
    simp only [List.map_cons]
    exact List.Forall₂.cons (h a (List.mem_cons_self _ _))
      (ih fun a ha => h a (List.mem_cons_of_mem _ ha))

theorem mkSlideEvent_span (c dur : ℚ) (seg : CaptionSeg) :
    (mkSlideEvent c dur seg).endTime - (mkSlideEvent c dur seg).startTime =
      max (dur * (seg.endRatio - seg.startRatio)) minSeg := by
  have hdiff : c + dur * seg.endRatio - (c + dur * seg.startRatio) =
      dur * (seg.endRatio - seg.startRatio) := by ring
  unfold mkSlideEvent
  by_cases hlt : c + dur * seg.endRatio - (c + dur * seg.startRatio) < minSeg
  · rw [if_pos hlt]
    show c + dur * seg.startRatio + minSeg - (c + dur * seg.startRatio) = _
    rw [max_eq_right (le_of_lt (hdiff ▸ hlt))]
    ring
  · rw [if_neg hlt]
    show c + dur * seg.endRatio - (c + dur * seg.startRatio) = _
    rw [hdiff, max_eq_left (by rw [← hdiff]; exact not_lt.mp hlt)]

/-- C4.  The claim as frozen says the last caption of a slide ends exactly
at the slide's duration boundary; when the last segment's scaled span falls
below the 0.15 s floor, the floor extension pushes its end past the
boundary.  Concretely, for script `"aaaaa。b"` and duration 1 the final
segment's share is 1/7 < 0.15, so its end time is 6/7 + 0.15 = 141/140, not
the boundary 0 + 1. -/
theorem ass_last_caption_boundary_counterexample :
    (slideEvents 0 ['a', 'a', 'a', 'a', 'a', '。', 'b'] 1).getLast?.map
        AssEvent.endTime = some (141 / 140) ∧
      (141 / 140 : ℚ) ≠ 0 + 1 := by
  constructor
  · simp +decide only [slideEvents, getSubtitleSegments, segmentsOfMerged,
      mergeSegs, runs, runsStep, ratioSegs, pyStrip, isPySpace, isPunct,
      isPunctRun, mkSlideEvent, minSeg, escapeAssText, List.dropWhile,
      List.filter, List.foldr, List.isEmpty, List.reverse, List.map, List.sum,
      List.length, List.getLast?, Option.map, List.all, List.append]
    norm_num
  · norm_num

/-- C4 (amended).  For every slide (script, duration) contributing at least
one caption at offset `c`: each caption's start is the offset plus the
duration-scaled start ratio and its span is the scaled ratio share extended
to the 0.15 s floor when shorter; the sum of all spans is ≥ the slide's raw
duration; the first caption starts at the slide's start offset (relative
time 0); and the last caption ends at or after the slide's duration
boundary (exactly at it when its floor extension does not trigger — the
counterexample shows it can end later). -/
theorem ass_caption_floor_and_coverage (c : ℚ) (script : List Char)
    (dur : ℚ) (hne : slideEvents c script dur ≠ []) :
    List.Forall₂ (fun (ev : AssEvent) (seg : CaptionSeg) =>
        ev.startTime = c + dur * seg.startRatio ∧
        ev.endTime - ev.startTime =
          max (dur * (seg.endRatio - seg.startRatio)) minSeg)
      (slideEvents c script dur) (getSubtitleSegments (pyStrip script)) ∧
    dur ≤ ((slideEvents c script dur).map
      (fun ev => ev.endTime - ev.startTime)).sum ∧
    (slideEvents c script dur).head?.map AssEvent.startTime = some c ∧
    (∃ e, (slideEvents c script dur).getLast?.map AssEvent.endTime = some e ∧
      c + dur ≤ e) := by
  have hS : slideEvents c script dur =
      (getSubtitleSegments (pyStrip script)).map (mkSlideEvent c dur) := by
    unfold slideEvents
    by_cases h : (pyStrip script).isEmpty
    · rw [if_pos h]
      have h0 : pyStrip script = [] := by simpa using h
      rw [h0]
      rfl
    · rw [if_neg h]
  have hsegne : getSubtitleSegments (pyStrip script) ≠ [] := by
    intro h0
    rw [hS, h0] at hne
    exact hne rfl
  obtain ⟨hhead, hlast⟩ := getSubtitleSegments_edge _ hsegne
  refine ⟨?_, ?_, ?_, ?_⟩
  · rw [hS]
    exact forall₂_map_self _ _ _ fun seg _ => ⟨rfl, mkSlideEvent_span c dur seg⟩
  · rw [hS, List.map_map]
    have hmaps :
        (getSubtitleSegments (pyStrip script)).map
            ((fun ev => ev.endTime - ev.startTime) ∘ mkSlideEvent c dur) =
          (getSubtitleSegments (pyStrip script)).map
            (fun seg => max (dur * (seg.endRatio - seg.startRatio)) minSeg) :=
      List.map_congr_left fun seg _ => mkSlideEvent_span c dur seg
    rw [hmaps]
    calc dur = dur * 1 := (mul_one dur).symm
      _ = dur * ((getSubtitleSegments (pyStrip script)).map
            (fun s => s.endRatio - s.startRatio)).sum := by
          rw [getSubtitleSegments_span_sum _ hsegne]
      _ = ((getSubtitleSegments (pyStrip script)).map
            (fun seg => dur * (seg.endRatio - seg.startRatio))).sum :=
          (sum_map_mul dur _ _).symm
      _ ≤ _ := sum_map_le _ _ _ fun seg _ => le_max_left _ _
  · rcases hh : (getSubtitleSegments (pyStrip script)).head? with _ | seg0
    · rw [hh] at hhead
      simp at hhead
    · rw [hh] at hhead
      simp only [Option.map_some', Option.some_inj] at hhead
      rw [hS, List.head?_map, hh]
      simp only [Option.map_some', Option.some_inj]
      show c + dur * seg0.startRatio = c
      rw [hhead, mul_zero, add_zero]
  · rcases hl : (getSubtitleSegments (pyStrip script)).getLast? with _ | segN
    · rw [hl] at hlast
      simp at hlast
    · rw [hl] at hlast
      simp only [Option.map_some', Option.some_inj] at hlast
      refine ⟨(mkSlideEvent c dur segN).endTime, ?_, ?_⟩
      · rw [hS, List.getLast?_map, hl]
        rfl
      · unfold mkSlideEvent
        rw [hlast, mul_one]
        by_cases hlt : c + dur - (c + dur * segN.startRatio) < minSeg
        · rw [if_pos hlt]
          have hlt' := sub_lt_iff_lt_add.mp hlt
          show c + dur ≤ c + dur * segN.startRatio + minSeg
          linarith
        · rw [if_neg hlt]

/-- C4 witness: the amended properties at a concrete one-slide input. -/
theorem ass_caption_floor_and_coverage_witness :
    (1 : ℚ) ≤ ((slideEvents 0 (String.toList "a。b") 1).map
        (fun ev => ev.endTime - ev.startTime)).sum ∧
    (slideEvents 0 (String.toList "a。b") 1).head?.map AssEvent.startTime =
      some 0 :=
  ⟨(ass_caption_floor_and_coverage 0 (String.toList "a。b") 1
      (by decide)).2.1,
   (ass_caption_floor_and_coverage 0 (String.toList "a。b") 1
      (by decide)).2.2.1⟩

/-! ### Duration resolution (`_get_audio_duration_seconds`,
`combine_audio_video`, `process_pdf_and_script`)

The external probes are the embedding's inputs: `fast` is the value parsed
from the FFmpeg `Duration:` header line (`none` when the regex does not
match or the subprocess raises), `moviepy` is `AudioFileClip(path).duration`
(`none` models Python `None`, turned into 0 by `clip.duration or 0`). -/

/-- `_get_audio_duration_seconds`: return the header value only when it is
strictly positive, else fall back to MoviePy's `float(clip.duration or 0)`. -/
def getAudioDurationSeconds (fast : Option ℚ) (moviepy : Option ℚ) : ℚ :=
  match fast with
  | some d => if 0 < d then d else moviepy.getD 0
  | none => moviepy.getD 0

/-- Slide-duration resolution in `combine_audio_video`: start from the
configured silence duration; when an audio file exists use the probe's
result, keeping the silence value only when the probe raises (`none`).
No clamp is applied here. -/
def combineSlideDuration (silence : ℚ) (audioExists : Bool)
    (probe : Option ℚ) : ℚ :=
  if audioExists then probe.getD silence else silence

/-- The clamp in `process_pdf_and_script`:
`if duration <= 0: duration = 0.01`. -/
def pdfSlideDuration (raw : ℚ) : ℚ :=
  if raw ≤ 0 then 1 / 100 else raw

/-- C5.  The claim as frozen says every constructed Slide has a strictly
positive duration, with non-positive values clamped to 0.01.  In
`combine_audio_video` no such clamp exists: when the header probe fails and
MoviePy reports duration 0, the constructed slide's duration is exactly 0. -/
theorem slide_duration_positive_counterexample :
    combineSlideDuration 5 true
        (some (getAudioDurationSeconds none (some 0))) = 0 ∧
      ¬ 0 < combineSlideDuration 5 true
        (some (getAudioDurationSeconds none (some 0))) := by
  refine ⟨rfl, ?_⟩
  rw [show combineSlideDuration 5 true
    (some (getAudioDurationSeconds none (some 0))) = 0 from rfl]
  exact lt_irrefl 0

/-- C5 (amended).  The 0.01 s clamp is applied where the encoder timeline is
built, not at Slide construction in `combine_audio_video`: every duration
written into the video concat descriptor is strictly positive (non-positive
values become 0.01), and the PDF pipeline (`process_pdf_and_script`) clamps
each slide's duration to 0.01 when it is ≤ 0 before constructing the Slide;
`combine_audio_video` itself can construct a Slide whose duration is ≤ 0
(see the counterexample). -/
theorem duration_clamps (d : ℚ) (paths : List String) (durations : List ℚ)
    (hne : paths ≠ []) (hlen : durations.length = paths.length) :
    0 < clampDur d ∧ (d ≤ 0 → clampDur d = 1 / 100) ∧
    0 < pdfSlideDuration d ∧ (d ≤ 0 → pdfSlideDuration d = 1 / 100) ∧
    ∀ e ∈ videoDescriptor paths durations, ∀ q ∈ e.2, 0 < q := by
  have hclamp : ∀ x : ℚ, 0 < clampDur x := by
    intro x
    unfold clampDur
    by_cases hx : x ≤ 0
    · rw [if_pos hx]; norm_num
    · rw [if_neg hx]; exact lt_of_not_le hx
  refine ⟨hclamp d, ?_, ?_, ?_, ?_⟩
  · intro hd
    unfold clampDur
    rw [if_pos hd]
  · unfold pdfSlideDuration
    by_cases hd : d ≤ 0
    · rw [if_pos hd]; norm_num
    · rw [if_neg hd]; exact lt_of_not_le hd
  · intro hd
    unfold pdfSlideDuration
    rw [if_pos hd]
  · intro e he q hq
    rw [videoDescriptor_eq paths durations hne hlen] at he
    rcases List.mem_append.mp he with h | h
    · obtain ⟨pd, _, rfl⟩ := List.mem_map.mp h
      simp only [Option.mem_def, Option.some_inj] at hq
      rw [← hq]
      exact hclamp _
    · simp only [List.mem_singleton] at h
      rw [h] at hq
      simp at hq

/-- C5 witness: the clamps at concrete values. -/
theorem duration_clamps_witness :
    clampDur (-1) = 1 / 100 ∧ 0 < pdfSlideDuration (-1) :=
  ⟨(duration_clamps (-1) ["a"] [0] (by decide) (by decide)).2.1
      (by norm_num),
   (duration_clamps (-1) ["a"] [0] (by decide) (by decide)).2.2.1⟩

/-! ### Encode orchestration: filter graph and canvas
(`_render_webm_with_ffmpeg`, `_render_mp4_with_ffmpeg`)

Both renderers build the same `-vf` chain by sequential appends; the target
height is `int(round(max_w * 9 / 16))` with Python's banker's rounding
(under IEEE doubles `w * 9 / 16` is exact for any realistic width, so the
`ℚ` value is the float's value). -/

/-- Python's `round` on a rational: round half to even. -/
def pyRound (q : ℚ) : ℤ :=
  if Int.fract q < 1 / 2 then ⌊q⌋
  else if 1 / 2 < Int.fract q then ⌊q⌋ + 1
  else if 2 ∣ ⌊q⌋ then ⌊q⌋ else ⌊q⌋ + 1

/-- `max_h = int(round(max_w * 9 / 16))`. -/
def maxHeight (w : ℤ) : ℤ :=
  pyRound ((w * 9 : ℚ) / 16)

theorem pyRound_abs (q : ℚ) : |q - (pyRound q : ℚ)| ≤ 1 / 2 := by
  have h0 : (0 : ℚ) ≤ Int.fract q := Int.fract_nonneg q
  have h1 : Int.fract q < 1 := Int.fract_lt_one q
  have hq : q - (⌊q⌋ : ℚ) = Int.fract q := by
    rw [Int.fract]
  unfold pyRound
  by_cases hlt : Int.fract q < 1 / 2
  · rw [if_pos hlt, abs_le]
    constructor <;> linarith
  · rw [if_neg hlt]
    by_cases hgt : 1 / 2 < Int.fract q
    · rw [if_pos hgt]
      push_cast
      rw [abs_le]
      constructor <;> linarith
    · rw [if_neg hgt]
      have heq : Int.fract q = 1 / 2 :=
        le_antisymm (not_lt.mp hgt) (not_lt.mp hlt)
      by_cases hdvd : 2 ∣ ⌊q⌋
      · rw [if_pos hdvd, abs_le]
        constructor <;> linarith
      · rw [if_neg hdvd]
        push_cast
        rw [abs_le]
        constructor <;> linarith

/-- Subtitle path escaping for the `subtitles` filter:
`.replace('\\', '/').replace(':', '\\:')` (drive-letter colons). -/
def escapeSubtitlePath (p : String) : String :=
  String.mk
    ((p.toList.map fun c => if c = '\\' then '/' else c).flatMap
      fun c => if c = ':' then ['\\', c] else [c])

def fpsFilter (fps : ℕ) : String :=
  "fps=" ++ toString fps

def scaleFilter (w h : ℤ) : String :=
  "scale=" ++ toString w ++ ":" ++ toString h ++
    ":force_original_aspect_ratio=decrease:flags=fast_bilinear"

def padFilter (w h : ℤ) : String :=
  "pad=" ++ toString w ++ ":" ++ toString h ++
    ":(ow-iw)/2:(oh-ih)/2:color=0x303030"

def subtitlesFilter (escapedPath : String) : String :=
  "subtitles='" ++ escapedPath ++ "'"

def formatFilter : String :=
  "format=yuv420p"

/-- The `vf_parts` sequence of `_render_webm_with_ffmpeg`, append by append
as in the source. -/
def webmVfParts (hasSubtitles : Bool) (fps : ℕ) (maxW : ℤ)
    (subPath : String) : List String :=
  let parts : List String := []
  let parts := if hasSubtitles then parts ++ [fpsFilter fps] else parts
  let parts := parts ++ [scaleFilter maxW (maxHeight maxW)]
  let parts := parts ++ [padFilter maxW (maxHeight maxW)]
  let parts := if hasSubtitles then
      parts ++ [subtitlesFilter (escapeSubtitlePath subPath)]
    else parts
  parts ++ [formatFilter]

/-- The `vf_parts` sequence of `_render_mp4_with_ffmpeg` (same appends). -/
def mp4VfParts (hasSubtitles : Bool) (fps : ℕ) (maxW : ℤ)
    (subPath : String) : List String :=
  let parts : List String := []
  let parts := if hasSubtitles then parts ++ [fpsFilter fps] else parts
  let parts := parts ++ [scaleFilter maxW (maxHeight maxW)]
  let parts := parts ++ [padFilter maxW (maxHeight maxW)]
  let parts := if hasSubtitles then
      parts ++ [subtitlesFilter (escapeSubtitlePath subPath)]
    else parts
  parts ++ [formatFilter]

/-- `vf = ",".join(vf_parts)`. -/
def webmVf (hasSubtitles : Bool) (fps : ℕ) (maxW : ℤ)
    (subPath : String) : String :=
  String.intercalate "," (webmVfParts hasSubtitles fps maxW subPath)

/-- C6.  Both renderers' filter chains list the filters in the claim's
fixed order: the constant-frame-rate `fps` filter first exactly when a
subtitle file is present, then aspect-preserving `scale`, then `pad` to the
target canvas, then the `subtitles` burn-in exactly when a subtitle file is
present (with backslashes turned to slashes and colons escaped in its
path), and `format=yuv420p` always last; the MP4 chain equals the WebM
chain, and a drive-letter path is escaped as claimed. -/
theorem filter_graph_order (hasSubtitles : Bool) (fps : ℕ) (maxW : ℤ)
    (subPath : String) :
    webmVfParts hasSubtitles fps maxW subPath =
      (if hasSubtitles then [fpsFilter fps] else []) ++
        [scaleFilter maxW (maxHeight maxW),
          padFilter maxW (maxHeight maxW)] ++
        (if hasSubtitles then
          [subtitlesFilter (escapeSubtitlePath subPath)] else []) ++
        [formatFilter] ∧
    mp4VfParts hasSubtitles fps maxW subPath =
      webmVfParts hasSubtitles fps maxW subPath ∧
    (webmVfParts hasSubtitles fps maxW subPath).getLast? =
      some formatFilter ∧
    webmVf hasSubtitles fps maxW subPath =
      String.intercalate "," (webmVfParts hasSubtitles fps maxW subPath) ∧
    escapeSubtitlePath "C:\\tmp\\subs.ass" = "C\\:/tmp/subs.ass" := by
  refine ⟨?_, ?_, ?_, rfl, by decide⟩
  · cases hasSubtitles <;> simp [webmVfParts]
  · cases hasSubtitles <;> simp [webmVfParts, mp4VfParts]
  · cases hasSubtitles <;> simp [webmVfParts, List.getLast?_append]

/-- C8.  The target height is Python's `round(width * 9 / 16)`, making the
padded canvas 16:9 up to rounding (`|16·h − 9·w| ≤ 8`); the `pad` filter in
the chain targets exactly that canvas, and width 1920 yields exactly
1920×1080. -/
theorem canvas_16_9 (w : ℤ) (hasSubtitles : Bool) (fps : ℕ)
    (subPath : String) :
    maxHeight w = pyRound ((w * 9 : ℚ) / 16) ∧
    |16 * maxHeight w - 9 * w| ≤ 8 ∧
    padFilter w (maxHeight w) ∈ webmVfParts hasSubtitles fps w subPath ∧
    maxHeight 1920 = 1080 := by
  refine ⟨rfl, ?_, ?_, ?_⟩
  · have habs : |(w * 9 : ℚ) / 16 - (pyRound ((w * 9 : ℚ) / 16) : ℚ)| ≤
        1 / 2 := pyRound_abs _
    have h16 : |16 * (maxHeight w : ℚ) - 9 * (w : ℚ)| ≤ 8 := by
      have : 16 * (maxHeight w : ℚ) - 9 * w =
          (-16) * ((w * 9 : ℚ) / 16 - (pyRound ((w * 9 : ℚ) / 16) : ℚ)) := by
        rw [show ((maxHeight w : ℤ) : ℚ) =
          ((pyRound ((w * 9 : ℚ) / 16) : ℤ) : ℚ) from rfl]
        ring
      rw [this, abs_mul]
      calc |(-16 : ℚ)| * |(w * 9 : ℚ) / 16 - (pyRound ((w * 9 : ℚ) / 16) : ℚ)|
          ≤ 16 * (1 / 2) := by
            rw [show |(-16 : ℚ)| = 16 by norm_num]
            exact mul_le_mul_of_nonneg_left habs (by norm_num)
        _ = 8 := by norm_num
    exact_mod_cast h16
  · cases hasSubtitles <;> simp [webmVfParts]
  · show pyRound ((1920 * 9 : ℚ) / 16) = 1080
    rw [show ((1920 * 9 : ℚ) / 16) = ((1080 : ℤ) : ℚ) by norm_num]
    unfold pyRound
    rw [Int.fract_intCast, Int.floor_intCast]
    norm_num

/-! ### Image candidate resolution (`_pick_newest`)

The filesystem modification time is the embedding's input: `mtime p` is
`os.path.getmtime(p)` with a raised exception already mapped to the
sentinel `-1.0`, exactly as the `except` branch of the source does. -/

/-- The loop of `_pick_newest`: update the best candidate whenever a path's
modification time strictly exceeds the best seen so far. -/
def pickNewestGo (mtime : String → ℚ) : List String → String → ℚ → String
  | [], best, _ => best
  | p :: ps, best, bestT =>
      if bestT < mtime p then pickNewestGo mtime ps p (mtime p)
      else pickNewestGo mtime ps best bestT

/-- `_pick_newest`: a single candidate is returned as is; otherwise the
loop starts from `best = paths[0]`, `best_t = -1.0` and scans all paths. -/
def pickNewest (mtime : String → ℚ) : List String → Option String
  | [] => none
  | [p] => some p
  | p :: ps => some (pickNewestGo mtime (p :: ps) p (-1))

theorem pickNewestGo_no_update (mtime : String → ℚ) (l : List String)
    (best : String) (bestT : ℚ) (h : ∀ y ∈ l, ¬ bestT < mtime y) :
    pickNewestGo mtime l best bestT = best := by
  induction l with
  | nil => rfl
  | cons p ps ih =>
    rw [pickNewestGo, if_neg (h p (List.mem_cons_self _ _))]
    exact ih fun y hy => h y (List.mem_cons_of_mem _ hy)

theorem pickNewestGo_max (mtime : String → ℚ) (l : List String) (x : String)
    (best : String) (bestT : ℚ) (hx : x ∈ l)
    (hmax : ∀ y ∈ l, y ≠ x → mtime y < mtime x) (hb : bestT < mtime x) :
    pickNewestGo mtime l best bestT = x := by
  induction l generalizing best bestT with
  | nil => cases hx
  | cons p ps ih =>
    by_cases hpx : p = x
    · subst hpx
      rw [pickNewestGo, if_pos hb]
      apply pickNewestGo_no_update
      intro y hy
      by_cases hyp : y = p
      · subst hyp
        exact lt_irrefl _
      · exact not_lt.mpr
          (le_of_lt (hmax y (List.mem_cons_of_mem _ hy) hyp))
    · have hx' : x ∈ ps := by
        rcases List.mem_cons.mp hx with h | h
        · exact absurd h.symm hpx
        · exact h
      have hlt : mtime p < mtime x := hmax p (List.mem_cons_self _ _) hpx
      rw [pickNewestGo]
      by_cases hup : bestT < mtime p
      · rw [if_pos hup]
        exact ih _ _ hx'
          (fun y hy hyx => hmax y (List.mem_cons_of_mem _ hy) hyx) hlt
      · rw [if_neg hup]
        exact ih _ _ hx'
          (fun y hy hyx => hmax y (List.mem_cons_of_mem _ hy) hyx) hb

/-- C9.  When one candidate's modification time strictly exceeds every
other candidate's (and is a real timestamp, i.e. above the `-1.0` failure
sentinel), `_pick_newest` returns exactly that candidate — deterministic
last-write-wins. -/
theorem pick_newest_selects_latest (mtime : String → ℚ)
    (paths : List String) (x : String) (hx : x ∈ paths)
    (hmax : ∀ y ∈ paths, y ≠ x → mtime y < mtime x)
    (hpos : -1 < mtime x) :
    pickNewest mtime paths = some x := by
  match paths with
  | [] => cases hx
  | [p] =>
    rw [show x = p by simpa using hx]
    rfl
  | p :: q :: ps =>
    show some (pickNewestGo mtime (p :: q :: ps) p (-1)) = some x
    rw [pickNewestGo_max mtime _ x p (-1) hx hmax hpos]

/-- C9 witness (the spec's Scenario D): two candidates for slide index 0
with distinct modification times — the newer one is selected. -/
theorem pick_newest_selects_latest_witness :
    pickNewest (fun p => if p = "temp/slide_0.png" then 10 else 7)
      ["temp/slide_000.png", "temp/slide_0.png"] =
      some "temp/slide_0.png" :=
  pick_newest_selects_latest _ _ _ (by decide) (by decide) (by decide)

/-! ### Output format selection (`combine_audio_video`)

`fmt = (output_format or "webm").lower().strip()` is validated against
`("webm", "mp4")` before the subtitle file is generated and before any
renderer runs; the output path is `os.path.join(output_dir,
f"{output_name}.{fmt}")` (written with the POSIX separator here).  The
argument is `Option String` so that Python `None` is representable;
`Char.toLower` is ASCII lowering, which agrees with Python `str.lower` on
the alphabet the validation inspects. -/

inductive CombineAction where
  | generateSubtitle
  | renderWebm
  | renderMp4
deriving DecidableEq

inductive CombineError where
  | valueError (msg : String)
deriving DecidableEq

/-- `output_format or "webm"`: `None` and the empty string are falsy. -/
def orWebm : Option String → String
  | none => "webm"
  | some v => if v = "" then "webm" else v

/-- `.lower()` (ASCII). -/
def pyLower (s : String) : String :=
  String.mk (s.toList.map Char.toLower)

/-- `(output_format or "webm").lower().strip()`. -/
def normFormat (outputFormat : Option String) : String :=
  pyStripS (pyLower (orWebm outputFormat))

/-- Python's `str(arg)` as it appears in the f-string of the raised
`ValueError` (`None` prints as `"None"`). -/
def pyStrArg : Option String → String
  | none => "None"
  | some s => s

/-- The tail of `combine_audio_video` after slide collection: validate the
normalized format (raising `ValueError` before anything else happens),
compute the output path, then generate the subtitle file if requested and
run exactly one renderer.  The returned action list records what the
function goes on to do, in order. -/
def combineOutput (outputDir outputName : String) (subtitle : Bool)
    (outputFormat : Option String) :
    Except CombineError (String × String × List CombineAction) :=
  let fmt := normFormat outputFormat
  if fmt = "webm" ∨ fmt = "mp4" then
    Except.ok (fmt, outputDir ++ "/" ++ outputName ++ "." ++ fmt,
      (if subtitle then [CombineAction.generateSubtitle] else []) ++
        [if fmt = "webm" then CombineAction.renderWebm
         else CombineAction.renderMp4])
  else
    Except.error (CombineError.valueError
      ("Unsupported output_format: " ++ pyStrArg outputFormat))

/-- C10.  A normalized format other than "webm"/"mp4" raises `ValueError`
(carrying the original argument) with no subtitle generation and no
encoding; `None` and the empty string normalize to "webm"; a successful
call returns `output_dir/output_name.<fmt>` with the normalized format as
extension, generates the subtitle file exactly when requested, and runs
exactly one renderer, matching the format. -/
theorem output_format_validation (outputDir outputName : String)
    (subtitle : Bool) (fmtArg : Option String) :
    (normFormat fmtArg ≠ "webm" → normFormat fmtArg ≠ "mp4" →
      combineOutput outputDir outputName subtitle fmtArg =
        Except.error (CombineError.valueError
          ("Unsupported output_format: " ++ pyStrArg fmtArg))) ∧
    ((fmtArg = none ∨ fmtArg = some "") → normFormat fmtArg = "webm") ∧
    (∀ fmt path acts,
      combineOutput outputDir outputName subtitle fmtArg =
        Except.ok (fmt, path, acts) →
      (fmt = "webm" ∨ fmt = "mp4") ∧ fmt = normFormat fmtArg ∧
      path = outputDir ++ "/" ++ outputName ++ "." ++ fmt ∧
      acts = (if subtitle then [CombineAction.generateSubtitle] else []) ++
        [if fmt = "webm" then CombineAction.renderWebm
         else CombineAction.renderMp4]) := by
  refine ⟨?_, ?_, ?_⟩
  · intro h1 h2
    unfold combineOutput
    rw [if_neg (by tauto)]
  · rintro (rfl | rfl) <;> decide
  · intro fmt path acts h
    unfold combineOutput at h
    by_cases hok : normFormat fmtArg = "webm" ∨ normFormat fmtArg = "mp4"
    · rw [if_pos hok] at h
      simp only [Except.ok.injEq, Prod.mk.injEq] at h
      obtain ⟨hfmt, hpath, hacts⟩ := h
      subst hfmt
      exact ⟨hok, rfl, hpath.symm, hacts.symm⟩
    · rw [if_neg hok] at h
      cases h

/-- C10 witness: an unsupported format raises before anything runs, and the
defaults resolve to webm. -/
theorem output_format_validation_witness :
    combineOutput "out" "video" true (some "AVI") =
      Except.error (CombineError.valueError
        ("Unsupported output_format: " ++ pyStrArg (some "AVI"))) ∧
    normFormat none = "webm" :=
  ⟨(output_format_validation "out" "video" true (some "AVI")).1
      (by decide) (by decide),
   (output_format_validation "out" "video" true none).2.1 (Or.inl rfl)⟩

/-! ### Encoder failure surfacing (`safe_decode` and the renderers' error
paths)

The encoder's diagnostic stream is a byte sequence.  `safe_decode` tries a
strict `utf-8` decode, then `cp932`, then `utf-8` with `errors="replace"`.
The strict UTF-8 decoder and the replacing decoder (Python's
maximal-subpart substitution) are implemented here; the cp932 codec is a
platform table treated as an external collaborator and passed in as a
function (`none` models its `UnicodeDecodeError`). -/

def isCont (b : ℕ) : Bool :=
  0x80 ≤ b && b ≤ 0xBF

/-- Constraint on the first continuation byte after a 3-byte lead (rules
out overlong encodings and surrogates, as Python's strict codec does). -/
def cont3ok (b0 b1 : ℕ) : Bool :=
  if b0 = 0xE0 then 0xA0 ≤ b1 && b1 ≤ 0xBF
  else if b0 = 0xED then 0x80 ≤ b1 && b1 ≤ 0x9F
  else isCont b1

/-- Constraint on the first continuation byte after a 4-byte lead (rules
out overlongs and code points beyond U+10FFFF). -/
def cont4ok (b0 b1 : ℕ) : Bool :=
  if b0 = 0xF0 then 0x90 ≤ b1 && b1 ≤ 0xBF
  else if b0 = 0xF4 then 0x80 ≤ b1 && b1 ≤ 0x8F
  else isCont b1

/-- Strict UTF-8 decoding (`bytes.decode("utf-8")`): `none` models the
`UnicodeDecodeError` that sends `safe_decode` to its next codec. -/
def utf8Decode? : List ℕ → Option (List Char)
  | [] => some []
  | b0 :: rest =>
    if b0 < 0x80 then
      (utf8Decode? rest).map (fun cs => Char.ofNat b0 :: cs)
    else if b0 < 0xC2 then none
    else if b0 < 0xE0 then
      match rest with
      | b1 :: rest1 =>
        if isCont b1 then
          (utf8Decode? rest1).map
            (fun cs => Char.ofNat ((b0 - 0xC0) * 64 + (b1 - 0x80)) :: cs)
        else none
      | [] => none
    else if b0 < 0xF0 then
      match rest with
      | b1 :: b2 :: rest2 =>
        if cont3ok b0 b1 && isCont b2 then
          (utf8Decode? rest2).map
            (fun cs => Char.ofNat
              ((b0 - 0xE0) * 4096 + (b1 - 0x80) * 64 + (b2 - 0x80)) :: cs)
        else none
      | _ => none
    else if b0 < 0xF5 then
      match rest with
      | b1 :: b2 :: b3 :: rest3 =>
        if cont4ok b0 b1 && isCont b2 && isCont b3 then
          (utf8Decode? rest3).map
            (fun cs => Char.ofNat
              ((b0 - 0xF0) * 262144 + (b1 - 0x80) * 4096 +
                (b2 - 0x80) * 64 + (b3 - 0x80)) :: cs)
        else none
      | _ => none
    else none

def replacementChar : Char :=
  '\uFFFD'

/-- `bytes.decode("utf-8", errors="replace")`: each maximal subpart of an
ill-formed sequence (an invalid byte, or a lead byte with the valid
continuations that follow it) becomes one U+FFFD. -/
def utf8DecodeReplace : List ℕ → List Char
  | [] => []
  | b0 :: rest =>
    if b0 < 0x80 then Char.ofNat b0 :: utf8DecodeReplace rest
    else if b0 < 0xC2 then replacementChar :: utf8DecodeReplace rest
    else if b0 < 0xE0 then
      match rest with
      | b1 :: rest1 =>
        if isCont b1 then
          Char.ofNat ((b0 - 0xC0) * 64 + (b1 - 0x80)) ::
            utf8DecodeReplace rest1
        else replacementChar :: utf8DecodeReplace (b1 :: rest1)
      | [] => [replacementChar]
    else if b0 < 0xF0 then
      match rest with
      | b1 :: rest1 =>
        if cont3ok b0 b1 then
          match rest1 with
          | b2 :: rest2 =>
            if isCont b2 then
              Char.ofNat
                  ((b0 - 0xE0) * 4096 + (b1 - 0x80) * 64 + (b2 - 0x80)) ::
                utf8DecodeReplace rest2
            else replacementChar :: utf8DecodeReplace (b2 :: rest2)
          | [] => [replacementChar]
        else replacementChar :: utf8DecodeReplace (b1 :: rest1)
      | [] => [replacementChar]
    else if b0 < 0xF5 then
      match rest with
      | b1 :: rest1 =>
        if cont4ok b0 b1 then
          match rest1 with
          | b2 :: rest2 =>
            if isCont b2 then
              match rest2 with
              | b3 :: rest3 =>
                if isCont b3 then
                  Char.ofNat
                      ((b0 - 0xF0) * 262144 + (b1 - 0x80) * 4096 +
                        (b2 - 0x80) * 64 + (b3 - 0x80)) ::
                    utf8DecodeReplace rest3
                else replacementChar :: utf8DecodeReplace (b3 :: rest3)
              | [] => [replacementChar]
            else replacementChar :: utf8DecodeReplace (b2 :: rest2)
          | [] => [replacementChar]
        else replacementChar :: utf8DecodeReplace (b1 :: rest1)
      | [] => [replacementChar]
    else replacementChar :: utf8DecodeReplace rest

/-- `safe_decode`: utf-8 strict, then cp932, then utf-8 with replacement. -/
def safeDecode (cp932 : List ℕ → Option (List Char)) (b : List ℕ) :
    List Char :=
  match utf8Decode? b with
  | some s => s
  | none =>
    match cp932 b with
    | some s => s
    | none => utf8DecodeReplace b

/-- Python string `or`: an empty string is falsy. -/
def pyOrStr (a b : List Char) : List Char :=
  if a = [] then b else a

/-- `f"FFmpeg failed (code={proc.returncode}): {err}"`. -/
def ffmpegFailMsg (returncode : ℤ) (err : List Char) : List Char :=
  String.toList "FFmpeg failed (code=" ++ (toString returncode).toList ++
    String.toList "): " ++ err

/-- The WebM renderer's diagnostic text:
`(safe_decode(stderr) or safe_decode(stdout)).strip()`. -/
def webmErrText (cp932 : List ℕ → Option (List Char))
    (stderr stdout : List ℕ) : List Char :=
  pyStrip (pyOrStr (safeDecode cp932 stderr) (safeDecode cp932 stdout))

/-- The MP4 renderer's diagnostic text: `safe_decode(stderr).strip()`. -/
def mp4ErrText (cp932 : List ℕ → Option (List Char)) (stderr : List ℕ) :
    List Char :=
  pyStrip (safeDecode cp932 stderr)

/-- Outcome of the WebM renderer's subprocess check: one `RuntimeError` on
non-zero exit, success otherwise. -/
def renderWebmResult (cp932 : List ℕ → Option (List Char))
    (returncode : ℤ) (stderr stdout : List ℕ) : Except (List Char) Unit :=
  if returncode ≠ 0 then
    Except.error (ffmpegFailMsg returncode (webmErrText cp932 stderr stdout))
  else Except.ok ()

/-- Outcome of the MP4 renderer's subprocess check. -/
def renderMp4Result (cp932 : List ℕ → Option (List Char))
    (returncode : ℤ) (stderr : List ℕ) : Except (List Char) Unit :=
  if returncode ≠ 0 then
    Except.error (ffmpegFailMsg returncode (mp4ErrText cp932 stderr))
  else Except.ok ()

/-- ASCII text as the byte sequence the process would emit. -/
def asciiBytes (s : String) : List ℕ :=
  s.toList.map Char.toNat

/-- C7.  On a non-zero exit code both renderers produce exactly one failure
whose message embeds the diagnostic stream decoded by the fallback chain
utf-8 → cp932 → utf-8-with-replacement (stripped) together with the exit
code; a zero exit code produces no failure; and the chain really tries the
three codecs in that order. -/
theorem encoder_failure_surfaced (cp932 : List ℕ → Option (List Char))
    (returncode : ℤ) (stderr stdout : List ℕ) (h : returncode ≠ 0) :
    renderWebmResult cp932 returncode stderr stdout =
      Except.error
        (ffmpegFailMsg returncode (webmErrText cp932 stderr stdout)) ∧
    renderMp4Result cp932 returncode stderr =
      Except.error (ffmpegFailMsg returncode (mp4ErrText cp932 stderr)) ∧
    renderWebmResult cp932 0 stderr stdout = Except.ok () ∧
    renderMp4Result cp932 0 stderr = Except.ok () ∧
    webmErrText cp932 stderr stdout <:+:
      ffmpegFailMsg returncode (webmErrText cp932 stderr stdout) ∧
    mp4ErrText cp932 stderr <:+:
      ffmpegFailMsg returncode (mp4ErrText cp932 stderr) ∧
    (toString returncode).toList <:+:
      ffmpegFailMsg returncode (mp4ErrText cp932 stderr) ∧
    (∀ s, utf8Decode? stderr = some s → safeDecode cp932 stderr = s) ∧
    (∀ s, utf8Decode? stderr = none → cp932 stderr = some s →
      safeDecode cp932 stderr = s) ∧
    (utf8Decode? stderr = none → cp932 stderr = none →
      safeDecode cp932 stderr = utf8DecodeReplace stderr) := by
  refine ⟨?_, ?_, ?_, ?_, ?_, ?_, ?_, ?_, ?_, ?_⟩
  · unfold renderWebmResult
    rw [if_pos h]
  · unfold renderMp4Result
    rw [if_pos h]
  · unfold renderWebmResult
    rw [if_neg (by simp)]
  · unfold renderMp4Result
    rw [if_neg (by simp)]
  · exact ⟨String.toList "FFmpeg failed (code=" ++
      (toString returncode).toList ++ String.toList "): ", [],
      by simp [ffmpegFailMsg]⟩
  · exact ⟨String.toList "FFmpeg failed (code=" ++
      (toString returncode).toList ++ String.toList "): ", [],
      by simp [ffmpegFailMsg]⟩
  · exact ⟨String.toList "FFmpeg failed (code=",
      String.toList "): " ++ mp4ErrText cp932 stderr,
      by simp [ffmpegFailMsg]⟩
  · intro s hs
    unfold safeDecode
    rw [hs]
  · intro s hu hc
    unfold safeDecode
    rw [hu, hc]
  · intro hu hc
    unfold safeDecode
    rw [hu, hc]

/-- C7 witness (the spec's Scenario E): exit code 1 with diagnostic
`no such filter: 'subtitles'` surfaces one failure whose message contains
that text verbatim. -/
theorem encoder_failure_surfaced_witness :
    renderMp4Result (fun _ => none) 1
        (asciiBytes "no such filter: 'subtitles'") =
      Except.error (ffmpegFailMsg 1
        (mp4ErrText (fun _ => none)
          (asciiBytes "no such filter: 'subtitles'"))) ∧
    String.toList "no such filter: 'subtitles'" <:+:
      ffmpegFailMsg 1
        (mp4ErrText (fun _ => none)
          (asciiBytes "no such filter: 'subtitles'")) := by
  refine ⟨(encoder_failure_surfaced (fun _ => none) 1
      (asciiBytes "no such filter: 'subtitles'") [] (by decide)).2.1,
    ?_⟩
  have hinf := (encoder_failure_surfaced (fun _ => none) 1
    (asciiBytes "no such filter: 'subtitles'") [] (by decide)).2.2.2.2.2.1
  rw [show mp4ErrText (fun _ => none)
      (asciiBytes "no such filter: 'subtitles'") =
    String.toList "no such filter: 'subtitles'" from by decide] at hinf
  exact hinf

end SlideVoiceMaker
